import Mathlib

/-!
Verification of the ranking-loss and hard-negative-mining subsystem of
wayne980/HAL (`model.py`): the similarity scorers `cosine_sim` / `order_sim`,
the memory-bank exclusion mask, the hard-negative weighter (`wit`, `wii`) and
the two loss modes of `ContrastiveLoss.forward`.

Real tensors are modelled as functions `Fin B → Fin D → ℝ`; the memory bank
(three parallel sequences `mb_img`, `mb_cap`, `mb_ind`) is modelled as a list
of records carrying the two embeddings and the identity of each bank slot.
Failures of the Python code (UnboundLocalError for the hinge branch, which
reads the local variable `scores` at line 275 although it is only assigned at
line 298; RuntimeError from `torch.topk` when `k` exceeds the filtered bank
size) are modelled by `Except`.
-/

namespace HAL

open scoped BigOperators

/-- Similarity measure selector: `opt.measure` in `ContrastiveLoss.__init__`
chooses `order_sim` when it equals the order mode and `cosine_sim` otherwise. -/
inductive Measure
  | cosine
  | order
deriving DecidableEq

/-- The configuration fields of `opt` read by `ContrastiveLoss`. -/
structure Opt where
  measure : Measure
  margin : ℝ
  max_violation : Bool
  sum_violation : Bool
  global_alpha : ℝ
  global_beta : ℝ
  global_ep_posi : ℝ
  global_ep_nega : ℝ
  local_alpha : ℝ
  local_ep : ℝ
  mb_k : ℕ

/-- Runtime failure modes of `ContrastiveLoss.forward`.
`unboundScores` is the UnboundLocalError raised by the hinge branch (line 275
reads `scores`, assigned only at line 298); `topkOutOfRange` is the
RuntimeError raised by `torch.topk` when `k` exceeds the selected dimension;
`invalidConfig` is listed only so that the spec's claimed configuration
validation is expressible — the code never raises it. -/
inductive Err
  | unboundScores
  | topkOutOfRange
  | invalidConfig
deriving DecidableEq

/-- One slot of the memory bank: the slot's image embedding, caption
embedding and sample identity (`mb_img[m]`, `mb_cap[m]`, `mb_ind[m]`). -/
structure BankEntry (D : ℕ) where
  img : Fin D → ℝ
  cap : Fin D → ℝ
  ind : ℤ

/-- Similarity of one image embedding and one caption embedding, per measure.
Cosine: the dot product (rows of `im.mm(s.t())`).  Order: entry of
`-(s_j - im_i).clamp(min=0).pow(2).sum().sqrt()` from `order_sim`. -/
noncomputable def simVec (m : Measure) {D : ℕ} (u v : Fin D → ℝ) : ℝ :=
  match m with
  | .cosine => ∑ d, u d * v d
  | .order => -Real.sqrt (∑ d, max 0 (v d - u d) ^ 2)

/-- `cosine_sim(im, s) = im.mm(s.t())`: entry `(i, j)` is the dot product of
image row `i` and caption row `j`. -/
noncomputable def cosine_sim {B1 B2 D : ℕ} (im : Fin B1 → Fin D → ℝ)
    (s : Fin B2 → Fin D → ℝ) : Fin B1 → Fin B2 → ℝ :=
  fun i j => simVec .cosine (im i) (s j)

/-- `order_sim(im, s)`: after the transpose at line 242, entry `(i, j)` is
`-sqrt(sum_d max(0, s[j][d] - im[i][d])^2)`. -/
noncomputable def order_sim {B1 B2 D : ℕ} (im : Fin B1 → Fin D → ℝ)
    (s : Fin B2 → Fin D → ℝ) : Fin B1 → Fin B2 → ℝ :=
  fun i j => simVec .order (im i) (s j)

/-- `self.sim`: the measure-selected pairwise score matrix. -/
noncomputable def sim (m : Measure) {B1 B2 D : ℕ} (im : Fin B1 → Fin D → ℝ)
    (s : Fin B2 → Fin D → ℝ) : Fin B1 → Fin B2 → ℝ :=
  fun i j => simVec m (im i) (s j)

/-- One row of the score matrix against a bank-side list of embeddings
(`self.sim(im, mb_cap)` row `i`, or `self.sim(s, mb_img)` row `j`). -/
noncomputable def simList (m : Measure) {D : ℕ} (u : Fin D → ℝ)
    (l : List (Fin D → ℝ)) : List ℝ :=
  l.map (fun v => simVec m u v)

/-- The boolean exclusion mask
`[0 if i in indices else 1 for i in mb_ind]` (line 311): true exactly where
the bank identity does not occur among the current batch identities. -/
def used_ind {B : ℕ} (mb_ind : List ℤ) (indices : Fin B → ℤ) : List Bool :=
  mb_ind.map (fun i => if ∃ j, indices j = i then false else true)

/-- Boolean-mask indexing `t[mask]` of a sequence by a parallel boolean
sequence, keeping order. -/
def maskedSelect {α : Type*} : List α → List Bool → List α
  | [], _ => []
  | _ :: _, [] => []
  | x :: xs, b :: bs =>
      if b then x :: maskedSelect xs bs else maskedSelect xs bs

/-- Insert a value into a descending-sorted list of reals. -/
noncomputable def insertDesc (x : ℝ) : List ℝ → List ℝ
  | [] => [x]
  | y :: ys => if y ≤ x then x :: y :: ys else y :: insertDesc x ys

/-- Sort a list of reals in descending order (insertion sort). -/
noncomputable def sortDesc : List ℝ → List ℝ
  | [] => []
  | x :: xs => insertDesc x (sortDesc xs)

/-- `torch.topk(row, k)[0]`: the `k` largest values of a row, descending.
Total function; `forward` separately guards `k` against the row length, as
`torch.topk` raises when `k` exceeds it. -/
noncomputable def topkList (k : ℕ) (l : List ℝ) : List ℝ :=
  (sortDesc l).take k

/-- `cost_s` of the hinge branch (lines 279, 286): clamped caption-side cost
with the diagonal forced to zero by `masked_fill_`. -/
noncomputable def hinge_cost_s (margin : ℝ) {B : ℕ}
    (scores : Fin B → Fin B → ℝ) : Fin B → Fin B → ℝ :=
  fun i j => if i = j then 0 else max 0 (margin + scores i j - scores i i)

/-- `cost_im` of the hinge branch (lines 280, 287): clamped image-side cost
with the diagonal forced to zero by `masked_fill_`. -/
noncomputable def hinge_cost_im (margin : ℝ) {B : ℕ}
    (scores : Fin B → Fin B → ℝ) : Fin B → Fin B → ℝ :=
  fun i j => if i = j then 0 else max 0 (margin + scores i j - scores j j)

/-- The value the hinge branch (lines 275-294) computes from the score
matrix: row-max / column-max reduction under `max_violation`, full sums
otherwise, then `cost_s.sum() + cost_im.sum()`.  In the source this branch
never produces a value, because `scores` is unbound there; this definition is
that branch's arithmetic as a function of the score matrix it reads. -/
noncomputable def hinge_loss (margin : ℝ) (max_v : Bool) {B : ℕ}
    (scores : Fin B → Fin B → ℝ) : ℝ :=
  if max_v then
    (∑ i, ⨆ j, hinge_cost_s margin scores i j)
      + (∑ j, ⨆ i, hinge_cost_im margin scores i j)
  else
    (∑ i, ∑ j, hinge_cost_s margin scores i j)
      + (∑ i, ∑ j, hinge_cost_im margin scores i j)

/-- `scores_ = scores - s_diag` (lines 300-303) where
`s_diag = torch.eye(bsize) * scores`: the score matrix with its diagonal
zeroed. -/
noncomputable def scoresOff (m : Measure) {B D : ℕ}
    (im s : Fin B → Fin D → ℝ) : Fin B → Fin B → ℝ :=
  fun i j => sim m im s i j - (if i = j then sim m im s i j else 0)

/-- Per-anchor negative mass (lines 317 and 321):
`torch.exp(g_beta * torch.topk(row, mb_k)[0] - g_ep_nega).sum(1)` where `row`
is the anchor's similarity row against the filtered bank side. -/
noncomputable def k_avg_nega (opt : Opt) {B D : ℕ} (x : Fin B → Fin D → ℝ)
    (bankSide : List (Fin D → ℝ)) (k : ℕ) : Fin B → ℝ :=
  fun i =>
    ((topkList k (simList opt.measure (x i) bankSide)).map
      (fun v => Real.exp (opt.global_beta * v - opt.global_ep_nega))).sum

/-- Per-anchor positive-consistency mass (lines 318 and 322):
`torch.exp(g_alpha * (torch.topk(row, mb_k)[0] - g_ep_posi)).sum(1)`. -/
noncomputable def k_avg_posi (opt : Opt) {B D : ℕ} (x : Fin B → Fin D → ℝ)
    (bankSide : List (Fin D → ℝ)) (k : ℕ) : Fin B → ℝ :=
  fun i =>
    ((topkList k (simList opt.measure (x i) bankSide)).map
      (fun v => Real.exp (opt.global_alpha * (v - opt.global_ep_posi)))).sum

/-- The pairwise weight `wit` (lines 317, 321, 324-331, 338):
`(tmp_i2t + tmp_t2i) / (tmp_i2t + tmp_t2i + tmp_expii + tmp_exptt)` with
`exp_sii = exp(g_beta * s_diag.sum(0))`, followed by `wit - wit * eye`
zeroing the diagonal. -/
noncomputable def wit (opt : Opt) {B D : ℕ} (im s : Fin B → Fin D → ℝ)
    (fImgs fCaps : List (Fin D → ℝ)) (k : ℕ) : Fin B → Fin B → ℝ :=
  fun i j =>
    let i2t := k_avg_nega opt im fCaps k i
    let t2i := k_avg_nega opt s fImgs k j
    let expii := Real.exp (opt.global_beta * sim opt.measure im s i i)
    let exptt := Real.exp (opt.global_beta * sim opt.measure im s j j)
    let w := (i2t + t2i) / (i2t + t2i + expii + exptt)
    w - (if i = j then w else 0)

/-- The per-sample weight `wii` (lines 334-336):
`1 - exp_sii / (exp_sii + i2t_k_avg_positive + t2i_k_avg_positive)` with
`exp_sii = exp(g_alpha * (s_diag.sum(0) - g_ep_posi))`. -/
noncomputable def wii (opt : Opt) {B D : ℕ} (im s : Fin B → Fin D → ℝ)
    (fImgs fCaps : List (Fin D → ℝ)) (k : ℕ) : Fin B → ℝ :=
  fun i =>
    let e := Real.exp
      (opt.global_alpha * (sim opt.measure im s i i - opt.global_ep_posi))
    1 - e / (e + k_avg_posi opt im fCaps k i + k_avg_posi opt s fImgs k i)

/-- `S_` of the bank branch (line 340):
`exp(l_alpha * wit.detach() * (scores_ - l_ep))`.  The `.detach()` only
severs gradients; the value is the same. -/
noncomputable def S_bank (opt : Opt) {B D : ℕ} (im s : Fin B → Fin D → ℝ)
    (fImgs fCaps : List (Fin D → ℝ)) (k : ℕ) : Fin B → Fin B → ℝ :=
  fun i j =>
    Real.exp (opt.local_alpha * wit opt im s fImgs fCaps k i j
      * (scoresOff opt.measure im s i j - opt.local_ep))

/-- `loss_diag` of the bank branch (line 342):
`-log(1 + relu(s_diag.sum(0) * wii.detach()))`, where `s_diag.sum(0)` is the
vector of diagonal scores and `F.relu = max 0`. -/
noncomputable def loss_diag_bank (opt : Opt) {B D : ℕ}
    (im s : Fin B → Fin D → ℝ) (fImgs fCaps : List (Fin D → ℝ)) (k : ℕ) :
    Fin B → ℝ :=
  fun i =>
    -Real.log (1 + max 0 (sim opt.measure im s i i * wii opt im s fImgs fCaps k i))

/-- The summand of the final reduction (lines 350-354) for batch position
`i`, bank branch: `log(1 + S_.sum(0)) / l_alpha + log(1 + S_.sum(1)) /
l_alpha + loss_diag`, with `sum(0)` the column sum and `sum(1)` the row
sum. -/
noncomputable def bankTerm (opt : Opt) {B D : ℕ} (im s : Fin B → Fin D → ℝ)
    (fImgs fCaps : List (Fin D → ℝ)) (k : ℕ) : Fin B → ℝ :=
  fun i =>
    Real.log (1 + ∑ i', S_bank opt im s fImgs fCaps k i' i) / opt.local_alpha
      + Real.log (1 + ∑ j, S_bank opt im s fImgs fCaps k i j) / opt.local_alpha
      + loss_diag_bank opt im s fImgs fCaps k i

/-- The scalar the bank branch returns: `torch.sum(...) / bsize`. -/
noncomputable def bankLoss (opt : Opt) {B D : ℕ} (im s : Fin B → Fin D → ℝ)
    (fImgs fCaps : List (Fin D → ℝ)) (k : ℕ) : ℝ :=
  (∑ i, bankTerm opt im s fImgs fCaps k i) / (B : ℝ)

/-- `S_` of the bank-free branch (line 346): `exp(l_alpha * (scores_ - l_ep))`. -/
noncomputable def S_noBank (opt : Opt) {B D : ℕ}
    (im s : Fin B → Fin D → ℝ) : Fin B → Fin B → ℝ :=
  fun i j =>
    Real.exp (opt.local_alpha * (scoresOff opt.measure im s i j - opt.local_ep))

/-- The summand of the final reduction for batch position `i`, bank-free
branch, with `loss_diag = -log(1 + relu(s_diag.sum(0)))` (line 348). -/
noncomputable def noBankTerm (opt : Opt) {B D : ℕ}
    (im s : Fin B → Fin D → ℝ) : Fin B → ℝ :=
  fun i =>
    Real.log (1 + ∑ i', S_noBank opt im s i' i) / opt.local_alpha
      + Real.log (1 + ∑ j, S_noBank opt im s i j) / opt.local_alpha
      + -Real.log (1 + max 0 (sim opt.measure im s i i))

/-- The scalar the bank-free branch returns: `torch.sum(...) / bsize`. -/
noncomputable def noBankLoss (opt : Opt) {B D : ℕ}
    (im s : Fin B → Fin D → ℝ) : ℝ :=
  (∑ i, noBankTerm opt im s i) / (B : ℝ)

/-- `ContrastiveLoss.forward(im, s, mb_img, mb_cap, mb_ind, indices)`.

Control flow of lines 271-356: the hinge branch is entered first when either
violation flag is set and immediately raises UnboundLocalError (its first
statement reads `scores`, which is assigned only later, at line 298).
Otherwise the smooth path computes the in-batch score matrix; with no bank it
returns the bank-free loss; with a bank it clamps `mb_k` to the batch size
when the batch is smaller (line 309), filters the bank by the exclusion mask
(lines 311-314), and raises from `torch.topk` when `mb_k` exceeds the
filtered bank size, else returns the weighted loss. -/
noncomputable def forward (opt : Opt) {B D : ℕ} (im s : Fin B → Fin D → ℝ)
    (mb : Option (List (BankEntry D))) (indices : Fin B → ℤ) :
    Except Err ℝ :=
  if opt.max_violation || opt.sum_violation then
    .error .unboundScores
  else
    match mb with
    | none => .ok (noBankLoss opt im s)
    | some bank =>
        let mb_k := if B < opt.mb_k then B else opt.mb_k
        let mask := used_ind (bank.map (fun e => e.ind)) indices
        let fImgs := maskedSelect (bank.map (fun e => e.img)) mask
        let fCaps := maskedSelect (bank.map (fun e => e.cap)) mask
        if mb_k ≤ fImgs.length ∧ mb_k ≤ fCaps.length then
          .ok (bankLoss opt im s fImgs fCaps mb_k)
        else
          .error .topkOutOfRange

/-- The smooth weighted loss exactly as the spec states it (section 4.4b),
with the pair weights and sample weights as explicit arguments:
`S_ = exp(local_alpha * w_it * (scores_ - local_ep))`, positive term
`-log(1 + relu(s_diag_sum * w_ii))`, reduced by
`mean(log(1 + col_sum) / local_alpha + log(1 + row_sum) / local_alpha +
positive term)`.  Used to compare the bank-free branch against the weighted
formula at weights one (claim C6). -/
noncomputable def spec_smooth_weighted_loss (opt : Opt) {B D : ℕ}
    (im s : Fin B → Fin D → ℝ) (w_it : Fin B → Fin B → ℝ)
    (w_ii : Fin B → ℝ) : ℝ :=
  let S_ := fun i j =>
    Real.exp (opt.local_alpha * w_it i j
      * (scoresOff opt.measure im s i j - opt.local_ep))
  let term := fun i =>
    Real.log (1 + ∑ i', S_ i' i) / opt.local_alpha
      + Real.log (1 + ∑ j, S_ i j) / opt.local_alpha
      + -Real.log (1 + max 0 (sim opt.measure im s i i * w_ii i))
  (∑ i, term i) / (B : ℝ)

theorem hinge_cost_s_nonneg (margin : ℝ) {B : ℕ} (scores : Fin B → Fin B → ℝ)
    (i j : Fin B) : 0 ≤ hinge_cost_s margin scores i j := by
  unfold hinge_cost_s
  split
  · exact le_refl 0
  · exact le_max_left _ _

theorem hinge_cost_im_nonneg (margin : ℝ) {B : ℕ} (scores : Fin B → Fin B → ℝ)
    (i j : Fin B) : 0 ≤ hinge_cost_im margin scores i j := by
  unfold hinge_cost_im
  split
  · exact le_refl 0
  · exact le_max_left _ _

/-- C9: In order similarity mode, every entry of the score matrix is at most
zero, and an entry equals zero exactly when the image row (the A-row)
dominates the caption row (the C-row) componentwise. -/
theorem C9_order_sim_sign {B1 B2 D : ℕ} (im : Fin B1 → Fin D → ℝ)
    (s : Fin B2 → Fin D → ℝ) (i : Fin B1) (j : Fin B2) :
    order_sim im s i j ≤ 0 ∧
      (order_sim im s i j = 0 ↔ ∀ d, s j d ≤ im i d) := by
  constructor
  · exact neg_nonpos.mpr (Real.sqrt_nonneg _)
  · unfold order_sim simVec
    rw [neg_eq_zero,
      Real.sqrt_eq_zero (Finset.sum_nonneg fun d _ => by positivity)]
    constructor
    · intro h d
      have hd := (Finset.sum_eq_zero_iff_of_nonneg
        fun d _ => by positivity).1 h d (Finset.mem_univ d)
      have hmax : max 0 (s j d - im i d) = 0 :=
        (pow_eq_zero_iff (two_ne_zero)).1 hd
      have := max_eq_left_iff.1 hmax
      linarith
    · intro h
      refine Finset.sum_eq_zero fun d _ => ?_
      have hle : s j d - im i d ≤ 0 := by linarith [h d]
      rw [max_eq_left hle]
      norm_num

/-- C2 (amended): the hinge-mode formula, as a function of the score matrix
it reads, is non-negative for every margin, reduction flag and score matrix;
by the C2 counterexample the smooth mode does not share this property. -/
theorem C2_hinge_loss_nonneg (margin : ℝ) (max_v : Bool) {B : ℕ}
    (scores : Fin B → Fin B → ℝ) : 0 ≤ hinge_loss margin max_v scores := by
  unfold hinge_loss
  split
  · exact add_nonneg
      (Finset.sum_nonneg fun i _ =>
        Real.iSup_nonneg fun j => hinge_cost_s_nonneg margin scores i j)
      (Finset.sum_nonneg fun j _ =>
        Real.iSup_nonneg fun i => hinge_cost_im_nonneg margin scores i j)
  · exact add_nonneg
      (Finset.sum_nonneg fun i _ => Finset.sum_nonneg fun j _ =>
        hinge_cost_s_nonneg margin scores i j)
      (Finset.sum_nonneg fun i _ => Finset.sum_nonneg fun j _ =>
        hinge_cost_im_nonneg margin scores i j)

/-- C2 (counterexample): a valid smooth-mode call (unit-normalized B=1, D=1
batch, no bank, cosine measure, local_alpha = local_ep = 1) returns the
strictly negative scalar `log(1+exp(-1)) + log(1+exp(-1)) - log 2`; the claim
that the forward output is non-negative in the smooth weighted mode is
false. -/
theorem C2_smooth_loss_negative :
    forward ⟨.cosine, 0.2, false, false, 1, 1, 1, 1, 1, 1, 1⟩
        (fun _ _ => (1:ℝ) : Fin 1 → Fin 1 → ℝ)
        (fun _ _ => (1:ℝ) : Fin 1 → Fin 1 → ℝ) none (fun _ => 0)
      = .ok (Real.log (1 + Real.exp (-1)) + Real.log (1 + Real.exp (-1))
          - Real.log 2)
    ∧ Real.log (1 + Real.exp (-1)) + Real.log (1 + Real.exp (-1))
        - Real.log 2 < 0 := by
  constructor
  · have h1 : forward ⟨.cosine, 0.2, false, false, 1, 1, 1, 1, 1, 1, 1⟩
        (fun _ _ => (1:ℝ) : Fin 1 → Fin 1 → ℝ)
        (fun _ _ => (1:ℝ) : Fin 1 → Fin 1 → ℝ) none (fun _ => 0)
        = .ok (noBankLoss ⟨.cosine, 0.2, false, false, 1, 1, 1, 1, 1, 1, 1⟩
            (fun _ _ => (1:ℝ)) (fun _ _ => (1:ℝ))) := rfl
    rw [h1]
    have h2 : noBankLoss ⟨.cosine, 0.2, false, false, 1, 1, 1, 1, 1, 1, 1⟩
        (fun _ _ => (1:ℝ) : Fin 1 → Fin 1 → ℝ) (fun _ _ => (1:ℝ))
        = Real.log (1 + Real.exp (-1)) + Real.log (1 + Real.exp (-1))
          - Real.log 2 := by
      simp only [noBankLoss, noBankTerm, S_noBank, scoresOff, sim, simVec,
        Fin.sum_univ_one, mul_one, one_mul]
      norm_num [max_eq_right]
      ring_nf
    rw [h2]
  · have he : Real.exp (-1) * Real.exp 1 = 1 := by
      rw [← Real.exp_add]; norm_num
    have h1 : (2.7:ℝ) < Real.exp 1 :=
      lt_trans (by norm_num) Real.exp_one_gt_d9
    have hpos : (0:ℝ) < Real.exp (-1) := Real.exp_pos _
    have hx : Real.exp (-1) < 0.38 := by nlinarith
    have hmul : (1 + Real.exp (-1)) * (1 + Real.exp (-1)) < 2 := by nlinarith
    have hlog := Real.log_lt_log (by positivity) hmul
    rw [Real.log_mul (by positivity) (by positivity)] at hlog
    linarith

/-- C1: the hinge branch of `forward` never returns the hinge loss — on the
spec's own scenario (B=2, D=2, identity image and caption embeddings, cosine
measure, margin 0.2, max_violation) it fails with the unbound-variable error,
because line 275 reads `scores` before its assignment at line 298; the hinge
arithmetic of that branch, given the score matrix it was meant to read, does
evaluate to the claimed loss 0. -/
theorem C1_hinge_branch_unbound :
    forward ⟨.cosine, 0.2, true, false, 1, 1, 1, 1, 1, 1, 1⟩
        (fun i j => if i = j then (1:ℝ) else 0 : Fin 2 → Fin 2 → ℝ)
        (fun i j => if i = j then (1:ℝ) else 0 : Fin 2 → Fin 2 → ℝ)
        none (fun _ => 0) = .error .unboundScores
    ∧ hinge_loss 0.2 true
        (cosine_sim (fun i j => if i = j then (1:ℝ) else 0 : Fin 2 → Fin 2 → ℝ)
          (fun i j => if i = j then (1:ℝ) else 0)) = 0 := by
  constructor
  · rfl
  · have hsc : ∀ i j : Fin 2,
        cosine_sim (fun i j => if i = j then (1:ℝ) else 0 : Fin 2 → Fin 2 → ℝ)
          (fun i j => if i = j then (1:ℝ) else 0) i j
          = if i = j then 1 else 0 := by
      intro i j
      fin_cases i <;> fin_cases j <;>
        simp [cosine_sim, simVec, Fin.sum_univ_two]
    have hcs : ∀ i j : Fin 2,
        hinge_cost_s 0.2
          (cosine_sim (fun i j => if i = j then (1:ℝ) else 0 : Fin 2 → Fin 2 → ℝ)
            (fun i j => if i = j then (1:ℝ) else 0)) i j = 0 := by
      intro i j
      unfold hinge_cost_s
      rcases eq_or_ne i j with h | h
      · rw [if_pos h]
      · rw [if_neg h, hsc i j, hsc i i, if_neg h, if_pos rfl]
        rw [max_eq_left (by norm_num)]
    have hci : ∀ i j : Fin 2,
        hinge_cost_im 0.2
          (cosine_sim (fun i j => if i = j then (1:ℝ) else 0 : Fin 2 → Fin 2 → ℝ)
            (fun i j => if i = j then (1:ℝ) else 0)) i j = 0 := by
      intro i j
      unfold hinge_cost_im
      rcases eq_or_ne i j with h | h
      · rw [if_pos h]
      · rw [if_neg h, hsc i j, hsc j j, if_neg h, if_pos rfl]
        rw [max_eq_left (by norm_num)]
    unfold hinge_loss
    rw [if_pos rfl]
    simp [hcs, hci, ciSup_const]

theorem noBankLoss_eq_spec_ones (opt : Opt) {B D : ℕ}
    (im s : Fin B → Fin D → ℝ) :
    noBankLoss opt im s
      = spec_smooth_weighted_loss opt im s (fun _ _ => 1) (fun _ => 1) := by
  unfold noBankLoss noBankTerm S_noBank spec_smooth_weighted_loss
  simp only [one_mul, mul_one]

/-- C5 (amended): setting both `max_violation` and `sum_violation` triggers
no configuration validation — the call enters the hinge branch exactly as it
would with a single violation flag and fails with the unbound-scores error,
for every input. -/
theorem C5_both_flags_no_validation (opt : Opt) {B D : ℕ}
    (im s : Fin B → Fin D → ℝ) (mb : Option (List (BankEntry D)))
    (indices : Fin B → ℤ) (hmax : opt.max_violation = true)
    (hsum : opt.sum_violation = true) :
    forward opt im s mb indices = .error .unboundScores := by
  unfold forward
  rw [hmax, hsum]
  rfl

theorem C5_both_flags_witness :
    forward ⟨.cosine, 0.2, true, true, 1, 1, 1, 1, 1, 1, 1⟩
        (fun _ _ => (1:ℝ) : Fin 1 → Fin 1 → ℝ)
        (fun _ _ => (1:ℝ) : Fin 1 → Fin 1 → ℝ) none (fun _ => 0)
      = .error .unboundScores :=
  C5_both_flags_no_validation _ _ _ _ _ rfl rfl

/-- C5 (counterexample): with both violation flags set, the call does not
fail with a domain invalid-configuration error — it fails with the
unbound-variable error that every hinge-branch call hits. -/
theorem C5_no_invalid_config_error :
    forward ⟨.cosine, 0.2, true, true, 1, 1, 1, 1, 1, 1, 1⟩
        (fun _ _ => (1:ℝ) : Fin 1 → Fin 1 → ℝ)
        (fun _ _ => (1:ℝ) : Fin 1 → Fin 1 → ℝ) none (fun _ => 0)
      ≠ .error .invalidConfig := by
  have h : forward ⟨.cosine, 0.2, true, true, 1, 1, 1, 1, 1, 1, 1⟩
      (fun _ _ => (1:ℝ) : Fin 1 → Fin 1 → ℝ)
      (fun _ _ => (1:ℝ) : Fin 1 → Fin 1 → ℝ) none (fun _ => 0)
      = .error .unboundScores := rfl
  rw [h]
  intro hc
  exact Err.noConfusion (Except.error.inj hc)

/-- C6: in smooth mode, calling with an absent bank returns exactly the
spec's weighted smooth formula evaluated at pair weights one and sample
weights one — the bank-free formula is a true special case. -/
theorem C6_degenerate_bank_equiv (opt : Opt) {B D : ℕ}
    (im s : Fin B → Fin D → ℝ) (indices : Fin B → ℤ)
    (hmax : opt.max_violation = false) (hsum : opt.sum_violation = false) :
    forward opt im s none indices
      = .ok (spec_smooth_weighted_loss opt im s (fun _ _ => 1) (fun _ => 1)) := by
  unfold forward
  rw [hmax, hsum]
  show Except.ok (noBankLoss opt im s) = _
  exact congrArg Except.ok (noBankLoss_eq_spec_ones opt im s)

theorem C6_degenerate_bank_witness :
    forward ⟨.cosine, 0.2, false, false, 1, 1, 1, 1, 1, 1, 1⟩
        (fun _ _ => (1:ℝ) : Fin 1 → Fin 1 → ℝ)
        (fun _ _ => (1:ℝ) : Fin 1 → Fin 1 → ℝ) none (fun _ => 0)
      = .ok (spec_smooth_weighted_loss
          ⟨.cosine, 0.2, false, false, 1, 1, 1, 1, 1, 1, 1⟩
          (fun _ _ => (1:ℝ) : Fin 1 → Fin 1 → ℝ)
          (fun _ _ => (1:ℝ) : Fin 1 → Fin 1 → ℝ)
          (fun _ _ => (1:ℝ) : Fin 1 → Fin 1 → ℝ)
          (fun _ => (1:ℝ) : Fin 1 → ℝ)) :=
  C6_degenerate_bank_equiv _ _ _ _ rfl rfl

/-- C3: a non-empty bank whose every identity collides with the current
batch makes the exclusion mask select zero entries, and then `forward` fails
from `torch.topk` with k exceeding the empty filtered bank — it does not
fall back to the in-batch-only loss as the claim states. -/
theorem C3_empty_filter_fails :
    maskedSelect
        (([⟨fun _ => (1:ℝ), fun _ => (1:ℝ), 5⟩] : List (BankEntry 1)).map
          (fun e => e.cap))
        (used_ind
          (([⟨fun _ => (1:ℝ), fun _ => (1:ℝ), 5⟩] : List (BankEntry 1)).map
            (fun e => e.ind))
          (fun _ => (5:ℤ) : Fin 1 → ℤ)) = []
    ∧ forward ⟨.cosine, 0.2, false, false, 1, 1, 1, 1, 1, 1, 1⟩
        (fun _ _ => (1:ℝ) : Fin 1 → Fin 1 → ℝ)
        (fun _ _ => (1:ℝ) : Fin 1 → Fin 1 → ℝ)
        (some [⟨fun _ => 1, fun _ => 1, 5⟩]) (fun _ => 5)
        = .error .topkOutOfRange := by
  constructor
  · simp [used_ind, maskedSelect]
  · simp [forward, used_ind, maskedSelect]

/-- C4: when the filtered bank is smaller than the configured `mb_k` (and
the batch is not), nothing clamps `mb_k` to the filtered bank size — the
clamp at line 309 compares the batch size instead — so `forward` fails from
`torch.topk` rather than taking the top-k over all surviving entries. -/
theorem C4_no_clamp_to_filtered_size :
    (maskedSelect
        (([⟨fun _ => (1:ℝ), fun _ => (1:ℝ), 7⟩] : List (BankEntry 1)).map
          (fun e => e.img))
        (used_ind
          (([⟨fun _ => (1:ℝ), fun _ => (1:ℝ), 7⟩] : List (BankEntry 1)).map
            (fun e => e.ind))
          (fun _ => (5:ℤ) : Fin 2 → ℤ))).length = 1
    ∧ forward ⟨.cosine, 0.2, false, false, 1, 1, 1, 1, 1, 1, 2⟩
        (fun _ _ => (1:ℝ) : Fin 2 → Fin 1 → ℝ)
        (fun _ _ => (1:ℝ) : Fin 2 → Fin 1 → ℝ)
        (some [⟨fun _ => 1, fun _ => 1, 7⟩]) (fun _ => 5)
        = .error .topkOutOfRange := by
  constructor
  · simp [used_ind, maskedSelect]
  · simp [forward, used_ind, maskedSelect]

theorem used_ind_get {B : ℕ} (mb_ind : List ℤ) (indices : Fin B → ℤ)
    (p : ℕ) (hp' : p < (used_ind mb_ind indices).length)
    (hp : p < mb_ind.length) :
    (used_ind mb_ind indices).get ⟨p, hp'⟩
      = if ∃ j, indices j = mb_ind.get ⟨p, hp⟩ then false else true := by
  unfold used_ind
  simp [List.get_eq_getElem]

theorem used_ind_bank {B D : ℕ} (bank : List (BankEntry D))
    (indices : Fin B → ℤ) :
    used_ind (bank.map (fun e => e.ind)) indices
      = bank.map (fun e => if ∃ j, indices j = e.ind then false else true) := by
  unfold used_ind
  rw [List.map_map]
  rfl

theorem maskedSelect_map_eq_filter {α β : Type*} (f : α → β) (g : α → Bool)
    (l : List α) :
    maskedSelect (l.map f) (l.map g) = (l.filter g).map f := by
  induction l with
  | nil => rfl
  | cons x xs ih =>
      cases hg : g x <;>
        simp [maskedSelect, List.filter_cons, hg, ih]

theorem filter_eraseIdx_eq {α : Type*} (g : α → Bool) :
    ∀ (l : List α) (p : ℕ) (hp : p < l.length),
      g (l.get ⟨p, hp⟩) = false → (l.eraseIdx p).filter g = l.filter g
  | [], p, hp, _ => absurd hp (by simp)
  | x :: xs, 0, _, h => by
      rw [List.eraseIdx, List.filter_cons]
      simp only [List.get] at h
      simp [h]
  | x :: xs, p + 1, hp, h => by
      rw [List.eraseIdx, List.filter_cons, List.filter_cons]
      simp only [List.get] at h
      rw [filter_eraseIdx_eq g xs p (by simpa using hp) h]

/-- C7: the exclusion mask is true exactly at bank positions whose identity
is absent from the current batch identities, and removing a colliding bank
entry before the call leaves the returned loss unchanged. -/
theorem C7_self_exclusion (opt : Opt) {B D : ℕ} (im s : Fin B → Fin D → ℝ)
    (bank : List (BankEntry D)) (indices : Fin B → ℤ) (p : ℕ)
    (hp : p < bank.length)
    (hp' : p < (used_ind (bank.map (fun e => e.ind)) indices).length) :
    ((used_ind (bank.map (fun e => e.ind)) indices).get ⟨p, hp'⟩ = true
      ↔ ¬ ∃ j, indices j = (bank.get ⟨p, hp⟩).ind)
    ∧ ((∃ j, indices j = (bank.get ⟨p, hp⟩).ind) →
        forward opt im s (some bank) indices
          = forward opt im s (some (bank.eraseIdx p)) indices) := by
  constructor
  · have hm : ((bank.map (fun e => e.ind)).get ⟨p, by simpa using hp⟩)
        = (bank.get ⟨p, hp⟩).ind := by
      simp [List.get_eq_getElem]
    rw [used_ind_get _ _ p hp' (by simpa using hp), hm]
    by_cases h : ∃ j, indices j = (bank.get ⟨p, hp⟩).ind <;> simp [h]
  · intro hcoll
    have hg : (fun e : BankEntry D =>
        if ∃ j, indices j = e.ind then false else true) (bank.get ⟨p, hp⟩)
        = false := by
      show (if ∃ j, indices j = (bank.get ⟨p, hp⟩).ind then false else true)
        = false
      rw [if_pos hcoll]
    have himg : maskedSelect ((bank.eraseIdx p).map (fun e => e.img))
        (used_ind ((bank.eraseIdx p).map (fun e => e.ind)) indices)
        = maskedSelect (bank.map (fun e => e.img))
          (used_ind (bank.map (fun e => e.ind)) indices) := by
      rw [used_ind_bank, used_ind_bank, maskedSelect_map_eq_filter,
        maskedSelect_map_eq_filter, filter_eraseIdx_eq _ bank p hp hg]
    have hcap : maskedSelect ((bank.eraseIdx p).map (fun e => e.cap))
        (used_ind ((bank.eraseIdx p).map (fun e => e.ind)) indices)
        = maskedSelect (bank.map (fun e => e.cap))
          (used_ind (bank.map (fun e => e.ind)) indices) := by
      rw [used_ind_bank, used_ind_bank, maskedSelect_map_eq_filter,
        maskedSelect_map_eq_filter, filter_eraseIdx_eq _ bank p hp hg]
    unfold forward
    cases hb : (opt.max_violation || opt.sum_violation) <;>
      simp only [hb, Bool.false_eq_true, if_false, if_true, himg, hcap]

theorem C7_self_exclusion_witness :
    ((used_ind
        (([⟨fun _ => (1:ℝ), fun _ => (1:ℝ), 5⟩] : List (BankEntry 1)).map
          (fun e => e.ind)) (fun _ => (5:ℤ) : Fin 1 → ℤ)).get
        ⟨0, by simp [used_ind]⟩ = true
      ↔ ¬ ∃ j : Fin 1, (fun _ => (5:ℤ)) j
          = (([⟨fun _ => (1:ℝ), fun _ => (1:ℝ), 5⟩] : List (BankEntry 1)).get
              ⟨0, by simp⟩).ind)
    ∧ ((∃ j : Fin 1, (fun _ => (5:ℤ)) j
          = (([⟨fun _ => (1:ℝ), fun _ => (1:ℝ), 5⟩] : List (BankEntry 1)).get
              ⟨0, by simp⟩).ind) →
        forward ⟨.cosine, 0.2, false, false, 1, 1, 1, 1, 1, 1, 1⟩
          (fun _ _ => (1:ℝ) : Fin 1 → Fin 1 → ℝ)
          (fun _ _ => (1:ℝ) : Fin 1 → Fin 1 → ℝ)
          (some [⟨fun _ => 1, fun _ => 1, 5⟩]) (fun _ => 5)
          = forward ⟨.cosine, 0.2, false, false, 1, 1, 1, 1, 1, 1, 1⟩
            (fun _ _ => (1:ℝ) : Fin 1 → Fin 1 → ℝ)
            (fun _ _ => (1:ℝ) : Fin 1 → Fin 1 → ℝ)
            (some (([⟨fun _ => (1:ℝ), fun _ => (1:ℝ), 5⟩] :
              List (BankEntry 1)).eraseIdx 0)) (fun _ => 5)) :=
  C7_self_exclusion _ _ _ _ _ 0 (by simp) (by simp [used_ind])

theorem length_insertDesc (x : ℝ) (l : List ℝ) :
    (insertDesc x l).length = l.length + 1 := by
  induction l with
  | nil => rfl
  | cons y ys ih =>
      unfold insertDesc
      split
      · rfl
      · simp [ih]

theorem length_sortDesc (l : List ℝ) : (sortDesc l).length = l.length := by
  induction l with
  | nil => rfl
  | cons x xs ih =>
      unfold sortDesc
      rw [length_insertDesc, ih, List.length_cons]

theorem length_topkList (k : ℕ) (l : List ℝ) (h : k ≤ l.length) :
    (topkList k l).length = k := by
  unfold topkList
  rw [List.length_take, length_sortDesc]
  exact min_eq_left h

theorem topkList_ne_nil (k : ℕ) (l : List ℝ) (hk : 1 ≤ k)
    (h : k ≤ l.length) : topkList k l ≠ [] := by
  intro hnil
  have hlen := length_topkList k l h
  rw [hnil] at hlen
  simp at hlen
  omega

theorem k_avg_nega_pos (opt : Opt) {B D : ℕ} (x : Fin B → Fin D → ℝ)
    (bankSide : List (Fin D → ℝ)) (k : ℕ) (i : Fin B) (hk : 1 ≤ k)
    (hlen : k ≤ bankSide.length) : 0 < k_avg_nega opt x bankSide k i := by
  have hne : topkList k (simList opt.measure (x i) bankSide) ≠ [] :=
    topkList_ne_nil _ _ hk
      (by unfold simList; rw [List.length_map]; exact hlen)
  unfold k_avg_nega
  apply List.sum_pos
  · intro a ha
    obtain ⟨v, _, rfl⟩ := List.mem_map.1 ha
    exact Real.exp_pos _
  · intro hmap
    exact hne (by rwa [List.map_eq_nil_iff] at hmap)

theorem k_avg_posi_pos (opt : Opt) {B D : ℕ} (x : Fin B → Fin D → ℝ)
    (bankSide : List (Fin D → ℝ)) (k : ℕ) (i : Fin B) (hk : 1 ≤ k)
    (hlen : k ≤ bankSide.length) : 0 < k_avg_posi opt x bankSide k i := by
  have hne : topkList k (simList opt.measure (x i) bankSide) ≠ [] :=
    topkList_ne_nil _ _ hk
      (by unfold simList; rw [List.length_map]; exact hlen)
  unfold k_avg_posi
  apply List.sum_pos
  · intro a ha
    obtain ⟨v, _, rfl⟩ := List.mem_map.1 ha
    exact Real.exp_pos _
  · intro hmap
    exact hne (by rwa [List.map_eq_nil_iff] at hmap)

/-- C10: when the bank branch runs with a usable top-k (1 ≤ mb_k ≤ filtered
bank size), every entry of `wit` lies in [0,1] with zero diagonal, and every
entry of `wii` lies strictly between 0 and 1. -/
theorem C10_weight_bounds (opt : Opt) {B D : ℕ} (im s : Fin B → Fin D → ℝ)
    (fImgs fCaps : List (Fin D → ℝ)) (k : ℕ) (hk : 1 ≤ k)
    (hI : k ≤ fImgs.length) (hC : k ≤ fCaps.length) :
    (∀ i j, 0 ≤ wit opt im s fImgs fCaps k i j
      ∧ wit opt im s fImgs fCaps k i j ≤ 1)
    ∧ (∀ i, wit opt im s fImgs fCaps k i i = 0)
    ∧ (∀ i, 0 < wii opt im s fImgs fCaps k i
      ∧ wii opt im s fImgs fCaps k i < 1) := by
  refine ⟨fun i j => ?_, fun i => ?_, fun i => ?_⟩
  · simp only [wit]
    by_cases h : i = j
    · rw [if_pos h, sub_self]
      exact ⟨le_refl 0, zero_le_one⟩
    · rw [if_neg h, sub_zero]
      have hN : 0 < k_avg_nega opt im fCaps k i + k_avg_nega opt s fImgs k j :=
        add_pos (k_avg_nega_pos opt im fCaps k i hk hC)
          (k_avg_nega_pos opt s fImgs k j hk hI)
      have he1 := Real.exp_pos (opt.global_beta * sim opt.measure im s i i)
      have he2 := Real.exp_pos (opt.global_beta * sim opt.measure im s j j)
      have hden : 0 < k_avg_nega opt im fCaps k i + k_avg_nega opt s fImgs k j
          + Real.exp (opt.global_beta * sim opt.measure im s i i)
          + Real.exp (opt.global_beta * sim opt.measure im s j j) := by
        linarith
      constructor
      · exact le_of_lt (div_pos hN hden)
      · rw [div_le_one hden]
        linarith
  · simp [wit]
  · simp only [wii]
    have he := Real.exp_pos
      (opt.global_alpha * (sim opt.measure im s i i - opt.global_ep_posi))
    have hp1 := k_avg_posi_pos opt im fCaps k i hk hC
    have hp2 := k_avg_posi_pos opt s fImgs k i hk hI
    have hden : 0 < Real.exp
        (opt.global_alpha * (sim opt.measure im s i i - opt.global_ep_posi))
        + k_avg_posi opt im fCaps k i + k_avg_posi opt s fImgs k i := by
      linarith
    have hlt : Real.exp
        (opt.global_alpha * (sim opt.measure im s i i - opt.global_ep_posi))
        / (Real.exp
            (opt.global_alpha * (sim opt.measure im s i i - opt.global_ep_posi))
          + k_avg_posi opt im fCaps k i + k_avg_posi opt s fImgs k i) < 1 := by
      rw [div_lt_one hden]
      linarith
    have hgt : 0 < Real.exp
        (opt.global_alpha * (sim opt.measure im s i i - opt.global_ep_posi))
        / (Real.exp
            (opt.global_alpha * (sim opt.measure im s i i - opt.global_ep_posi))
          + k_avg_posi opt im fCaps k i + k_avg_posi opt s fImgs k i) :=
      div_pos he hden
    constructor
    · linarith
    · linarith

theorem C10_weight_bounds_witness :
    wit ⟨.cosine, 0.2, false, false, 1, 1, 1, 1, 1, 1, 1⟩
        (fun _ _ => (1:ℝ) : Fin 1 → Fin 1 → ℝ) (fun _ _ => (1:ℝ))
        [fun _ => (1:ℝ)] [fun _ => (1:ℝ)] 1 0 0 = 0
    ∧ 0 < wii ⟨.cosine, 0.2, false, false, 1, 1, 1, 1, 1, 1, 1⟩
        (fun _ _ => (1:ℝ) : Fin 1 → Fin 1 → ℝ) (fun _ _ => (1:ℝ))
        [fun _ => (1:ℝ)] [fun _ => (1:ℝ)] 1 0 :=
  ⟨(C10_weight_bounds _ _ _ _ _ _ (le_refl 1) (by simp) (by simp)).2.1 0,
   ((C10_weight_bounds _ _ _ _ _ _ (le_refl 1) (by simp) (by simp)).2.2 0).1⟩

theorem exists_perm_eq {B : ℕ} (σ : Equiv.Perm (Fin B))
    (indices : Fin B → ℤ) (x : ℤ) :
    (∃ j, indices (σ j) = x) ↔ (∃ j, indices j = x) := by
  constructor
  · rintro ⟨j, h⟩
    exact ⟨σ j, h⟩
  · rintro ⟨j, h⟩
    exact ⟨σ.symm j, by rw [Equiv.apply_symm_apply]; exact h⟩

theorem used_ind_perm {B : ℕ} (σ : Equiv.Perm (Fin B)) (mb_ind : List ℤ)
    (indices : Fin B → ℤ) :
    used_ind mb_ind (fun i => indices (σ i)) = used_ind mb_ind indices := by
  unfold used_ind
  simp only [exists_perm_eq]

theorem sim_perm {B D : ℕ} (m : Measure) (im s : Fin B → Fin D → ℝ)
    (σ : Equiv.Perm (Fin B)) (i j : Fin B) :
    sim m (fun a => im (σ a)) (fun a => s (σ a)) i j
      = sim m im s (σ i) (σ j) := rfl

theorem scoresOff_perm {B D : ℕ} (m : Measure) (im s : Fin B → Fin D → ℝ)
    (σ : Equiv.Perm (Fin B)) (i j : Fin B) :
    scoresOff m (fun a => im (σ a)) (fun a => s (σ a)) i j
      = scoresOff m im s (σ i) (σ j) := by
  unfold scoresOff
  simp only [sim_perm, Equiv.apply_eq_iff_eq]

theorem k_avg_nega_perm (opt : Opt) {B D : ℕ} (x : Fin B → Fin D → ℝ)
    (bankSide : List (Fin D → ℝ)) (k : ℕ) (σ : Equiv.Perm (Fin B))
    (i : Fin B) :
    k_avg_nega opt (fun a => x (σ a)) bankSide k i
      = k_avg_nega opt x bankSide k (σ i) := rfl

theorem wit_perm (opt : Opt) {B D : ℕ} (im s : Fin B → Fin D → ℝ)
    (fImgs fCaps : List (Fin D → ℝ)) (k : ℕ) (σ : Equiv.Perm (Fin B))
    (i j : Fin B) :
    wit opt (fun a => im (σ a)) (fun a => s (σ a)) fImgs fCaps k i j
      = wit opt im s fImgs fCaps k (σ i) (σ j) := by
  unfold wit
  simp only [k_avg_nega_perm, sim_perm, Equiv.apply_eq_iff_eq]

theorem wii_perm (opt : Opt) {B D : ℕ} (im s : Fin B → Fin D → ℝ)
    (fImgs fCaps : List (Fin D → ℝ)) (k : ℕ) (σ : Equiv.Perm (Fin B))
    (i : Fin B) :
    wii opt (fun a => im (σ a)) (fun a => s (σ a)) fImgs fCaps k i
      = wii opt im s fImgs fCaps k (σ i) := rfl

theorem S_bank_perm (opt : Opt) {B D : ℕ} (im s : Fin B → Fin D → ℝ)
    (fImgs fCaps : List (Fin D → ℝ)) (k : ℕ) (σ : Equiv.Perm (Fin B))
    (i j : Fin B) :
    S_bank opt (fun a => im (σ a)) (fun a => s (σ a)) fImgs fCaps k i j
      = S_bank opt im s fImgs fCaps k (σ i) (σ j) := by
  unfold S_bank
  rw [wit_perm, scoresOff_perm]

theorem loss_diag_bank_perm (opt : Opt) {B D : ℕ} (im s : Fin B → Fin D → ℝ)
    (fImgs fCaps : List (Fin D → ℝ)) (k : ℕ) (σ : Equiv.Perm (Fin B))
    (i : Fin B) :
    loss_diag_bank opt (fun a => im (σ a)) (fun a => s (σ a)) fImgs fCaps k i
      = loss_diag_bank opt im s fImgs fCaps k (σ i) := rfl

theorem bankTerm_perm (opt : Opt) {B D : ℕ} (im s : Fin B → Fin D → ℝ)
    (fImgs fCaps : List (Fin D → ℝ)) (k : ℕ) (σ : Equiv.Perm (Fin B))
    (i : Fin B) :
    bankTerm opt (fun a => im (σ a)) (fun a => s (σ a)) fImgs fCaps k i
      = bankTerm opt im s fImgs fCaps k (σ i) := by
  unfold bankTerm
  have h1 : ∑ i', S_bank opt (fun a => im (σ a)) (fun a => s (σ a))
      fImgs fCaps k i' i
      = ∑ i', S_bank opt im s fImgs fCaps k i' (σ i) := by
    rw [← Equiv.sum_comp σ (fun t => S_bank opt im s fImgs fCaps k t (σ i))]
    exact Finset.sum_congr rfl
      (fun t _ => S_bank_perm opt im s fImgs fCaps k σ t i)
  have h2 : ∑ j, S_bank opt (fun a => im (σ a)) (fun a => s (σ a))
      fImgs fCaps k i j
      = ∑ j, S_bank opt im s fImgs fCaps k (σ i) j := by
    rw [← Equiv.sum_comp σ (fun t => S_bank opt im s fImgs fCaps k (σ i) t)]
    exact Finset.sum_congr rfl
      (fun t _ => S_bank_perm opt im s fImgs fCaps k σ i t)
  rw [h1, h2, loss_diag_bank_perm]

theorem bankLoss_perm (opt : Opt) {B D : ℕ} (im s : Fin B → Fin D → ℝ)
    (fImgs fCaps : List (Fin D → ℝ)) (k : ℕ) (σ : Equiv.Perm (Fin B)) :
    bankLoss opt (fun a => im (σ a)) (fun a => s (σ a)) fImgs fCaps k
      = bankLoss opt im s fImgs fCaps k := by
  unfold bankLoss
  rw [Finset.sum_congr rfl
    (fun i _ => bankTerm_perm opt im s fImgs fCaps k σ i)]
  rw [Equiv.sum_comp σ (bankTerm opt im s fImgs fCaps k)]

theorem S_noBank_perm (opt : Opt) {B D : ℕ} (im s : Fin B → Fin D → ℝ)
    (σ : Equiv.Perm (Fin B)) (i j : Fin B) :
    S_noBank opt (fun a => im (σ a)) (fun a => s (σ a)) i j
      = S_noBank opt im s (σ i) (σ j) := by
  unfold S_noBank
  rw [scoresOff_perm]

theorem noBankTerm_perm (opt : Opt) {B D : ℕ} (im s : Fin B → Fin D → ℝ)
    (σ : Equiv.Perm (Fin B)) (i : Fin B) :
    noBankTerm opt (fun a => im (σ a)) (fun a => s (σ a)) i
      = noBankTerm opt im s (σ i) := by
  unfold noBankTerm
  have h1 : ∑ i', S_noBank opt (fun a => im (σ a)) (fun a => s (σ a)) i' i
      = ∑ i', S_noBank opt im s i' (σ i) := by
    rw [← Equiv.sum_comp σ (fun t => S_noBank opt im s t (σ i))]
    exact Finset.sum_congr rfl (fun t _ => S_noBank_perm opt im s σ t i)
  have h2 : ∑ j, S_noBank opt (fun a => im (σ a)) (fun a => s (σ a)) i j
      = ∑ j, S_noBank opt im s (σ i) j := by
    rw [← Equiv.sum_comp σ (fun t => S_noBank opt im s (σ i) t)]
    exact Finset.sum_congr rfl (fun t _ => S_noBank_perm opt im s σ i t)
  rw [h1, h2]
  rfl

theorem noBankLoss_perm (opt : Opt) {B D : ℕ} (im s : Fin B → Fin D → ℝ)
    (σ : Equiv.Perm (Fin B)) :
    noBankLoss opt (fun a => im (σ a)) (fun a => s (σ a))
      = noBankLoss opt im s := by
  unfold noBankLoss
  rw [Finset.sum_congr rfl (fun i _ => noBankTerm_perm opt im s σ i)]
  rw [Equiv.sum_comp σ (noBankTerm opt im s)]

/-- C8: jointly permuting the image embeddings, the caption embeddings and
the current batch identities by one permutation leaves the result of
`forward` unchanged, in smooth mode (with or without a bank) and in hinge
mode. -/
theorem C8_permutation_invariance (opt : Opt) {B D : ℕ}
    (im s : Fin B → Fin D → ℝ) (mb : Option (List (BankEntry D)))
    (indices : Fin B → ℤ) (σ : Equiv.Perm (Fin B)) :
    forward opt (fun a => im (σ a)) (fun a => s (σ a)) mb
        (fun a => indices (σ a)) = forward opt im s mb indices := by
  unfold forward
  cases hb : (opt.max_violation || opt.sum_violation) with
  | true => simp only [hb, if_true]
  | false =>
      simp only [hb, Bool.false_eq_true, if_false]
      cases mb with
      | none =>
          show Except.ok (noBankLoss opt (fun a => im (σ a))
            (fun a => s (σ a))) = Except.ok (noBankLoss opt im s)
          exact congrArg Except.ok (noBankLoss_perm opt im s σ)
      | some bank =>
          simp only [used_ind_perm, bankLoss_perm]

end HAL
